import Mathlib

/-!
# Verification of the suffuse clipboard hub and federation upstream

Shallow embedding of the clipboard broker (`internal/hub`, file `part_005`)
and the federation upstream reconnect loop (`internal/federation/federation.go`).

Go maps are modelled as association lists keyed by strings; the list order
plays the role of a particular map iteration order (Go leaves that order
unspecified, so any property claimed for the hub must hold for every order,
and a property that fails for some order is not guaranteed by the code).
Peer `Send` calls and listener callbacks are side effects in Go; here every
hub operation returns, besides the new hub state, the list of sends it made
(receiver peer paired with the event) and the list of listener callbacks.
-/

namespace Suffuse

/-- `pb.ClipboardItem`: a MIME label plus opaque bytes. -/
structure ClipboardItem where
  mime : String
  data : List Nat
deriving DecidableEq, Repr

/-- `hub.Event`: a clipboard update delivered to a peer. -/
structure Event where
  source : String
  clipboard : String
  items : List ClipboardItem
deriving DecidableEq, Repr

/-- The fields of `pb.PeerInfo` that the hub reads. -/
structure PeerInfo where
  source : String
  clipboard : String
  acceptedTypes : List String
deriving DecidableEq, Repr

/-- A `hub.Peer` capability: stable id, metadata snapshot, and whether the
peer implements the `hub.BroadcastPeer` interface. -/
structure Peer where
  id : String
  info : PeerInfo
  isBroadcast : Bool
deriving DecidableEq, Repr

/-- `hub.ClipboardFilter`: what a set of peers needs from one clipboard. -/
structure ClipboardFilter where
  clipboard : String
  accepts : List String
deriving DecidableEq, Repr

/-- `hub.DefaultClipboard`. -/
def DefaultClipboard : String := "default"

/-- `hub.canonicalize`: effective clipboard name, defaulting to "default". -/
def canonicalize (s : String) : String :=
  if s = "" then DefaultClipboard else s

/-- `hub.filterItems`: keep only items whose MIME type is in `accepted`;
if `accepted` is empty all items are returned unchanged. -/
def filterItems (items : List ClipboardItem) (accepted : List String) :
    List ClipboardItem :=
  if accepted = [] then items
  else items.filter (fun it => accepted.contains it.mime)

/-- Read a Go map entry, returning the given default (zero value) when the
key is absent. -/
def lookupD {α : Type} : List (String × α) → String → α → α
  | [], _, d => d
  | kv :: rest, k, d => if kv.1 = k then kv.2 else lookupD rest k d

/-- Write a Go map entry: replace in place, or append when absent. -/
def setA {α : Type} : List (String × α) → String → α → List (String × α)
  | [], k, v => [(k, v)]
  | kv :: rest, k, v => if kv.1 = k then (k, v) :: rest else kv :: setA rest k v

/-- `h.peers[p.ID()] = p`: replace the peer registered under the same id,
or add the peer. -/
def insertPeer : List Peer → Peer → List Peer
  | [], p => [p]
  | q :: rest, p => if q.id = p.id then p :: rest else q :: insertPeer rest p

/-- `delete(h.peers, id)`. -/
def removePeer (ps : List Peer) (i : String) : List Peer :=
  ps.filter (fun q => q.id ≠ i)

/-- The per-clipboard accumulator entry of `clipboardFiltersLocked`:
`accepts` is the accumulated set (kept in insertion order), `all` records
that some peer on this clipboard accepts everything. -/
structure FilterEntry where
  all : Bool
  accepts : List String
deriving DecidableEq, Repr

/-- Adding one MIME type to the accumulated accept set (`e.accepts[t] = {}`;
insertion order, no duplicates). -/
def insertAccept (acc : List String) (t : String) : List String :=
  if t ∈ acc then acc else acc ++ [t]

/-- The body of the per-peer update in `clipboardFiltersLocked`: skip when
already unbounded; an empty accepted list makes the entry unbounded;
otherwise add each accepted type to the set. -/
def updateEntry (e : FilterEntry) (accepts : List String) : FilterEntry :=
  if e.all then e
  else if accepts = [] then ⟨true, []⟩
  else ⟨false, accepts.foldl insertAccept e.accepts⟩

/-- Look up the accumulator entry for a clipboard. -/
def findE : List (String × FilterEntry) → String → Option FilterEntry
  | [], _ => none
  | kv :: rest, k => if kv.1 = k then some kv.2 else findE rest k

/-- Store the accumulator entry for a clipboard (replace or append). -/
def setE : List (String × FilterEntry) → String → FilterEntry →
    List (String × FilterEntry)
  | [], k, e => [(k, e)]
  | kv :: rest, k, e => if kv.1 = k then (k, e) :: rest else kv :: setE rest k e

/-- One iteration of the peer loop in `clipboardFiltersLocked`: broadcast
peers are skipped; otherwise the entry for the peer's canonical clipboard is
created (as an empty entry) if needed and updated with the peer's accepted
types. -/
def filtersStep (m : List (String × FilterEntry)) (p : Peer) :
    List (String × FilterEntry) :=
  if p.isBroadcast then m
  else
    let cb := canonicalize p.info.clipboard
    let e := (findE m cb).getD ⟨false, []⟩
    setE m cb (updateEntry e p.info.acceptedTypes)

/-- `Hub.clipboardFiltersLocked`, as a function of the peer list (the list
order standing for the Go map iteration order): fold every peer into the
per-clipboard accumulator, then emit one `ClipboardFilter` per entry, with
an empty accept list when the entry is unbounded. -/
def clipboardFilters (peers : List Peer) : List ClipboardFilter :=
  (peers.foldl filtersStep []).map
    (fun kv => ⟨kv.1, if kv.2.all then [] else kv.2.accepts⟩)

/-- `hub.Hub` state: registered peers, latest items and latest source per
clipboard, and whether a `PeerChangeListener` is set. -/
structure Hub where
  peers : List Peer
  latest : List (String × List ClipboardItem)
  latestSource : List (String × String)
  listenerSet : Bool
deriving DecidableEq, Repr

/-- `hub.New()`. -/
def Hub.new : Hub := ⟨[], [], [], false⟩

/-- `Hub.SetPeerChangeListener` with a non-nil listener. -/
def Hub.setListener (h : Hub) : Hub := { h with listenerSet := true }

/-- The observable outcome of one hub operation: the new hub state, the
`Send` calls made (receiver and event, in call order), and the filter
snapshots passed to `OnPeerChange` (empty when no listener is set). -/
structure OpOut where
  hub : Hub
  sends : List (Peer × Event)
  listenerCalls : List (List ClipboardFilter)
deriving DecidableEq, Repr

/-- `Hub.Register`: add the peer, snapshot the latest value of its canonical
clipboard and the post-change filters; notify the listener once; then replay
the latest value, filtered by the peer's accepted types, when both the latest
value and the filtered result are non-empty. -/
def Hub.Register (h : Hub) (p : Peer) : OpOut :=
  let peers := insertPeer h.peers p
  let cb := canonicalize p.info.clipboard
  let latest := lookupD h.latest cb []
  let src := lookupD h.latestSource cb ""
  let filters := clipboardFilters peers
  let replay :=
    if latest ≠ [] then
      let filtered := filterItems latest p.info.acceptedTypes
      if filtered ≠ [] then [(p, Event.mk src cb filtered)] else []
    else []
  ⟨⟨peers, h.latest, h.latestSource, h.listenerSet⟩, replay,
    if h.listenerSet then [filters] else []⟩

/-- `Hub.Unregister`: remove the peer by id and notify the listener once
with the post-change filters. -/
def Hub.Unregister (h : Hub) (p : Peer) : OpOut :=
  let peers := removePeer h.peers p.id
  ⟨⟨peers, h.latest, h.latestSource, h.listenerSet⟩, [],
    if h.listenerSet then [clipboardFilters peers] else []⟩

/-- `Hub.Publish`: canonicalize the clipboard name, store items and source
as the new latest, compute the target set (id differs from the origin, and
broadcast or same canonical clipboard), then send to each target the event
filtered by its accepted types, skipping targets whose filtered result is
empty. -/
def Hub.Publish (h : Hub) (items : List ClipboardItem)
    (clipboardName originID source : String) : OpOut :=
  let cb := canonicalize clipboardName
  let latest := setA h.latest cb items
  let latestSource := setA h.latestSource cb source
  let targets := h.peers.filter
    (fun p => p.id ≠ originID ∧ (p.isBroadcast = true ∨ canonicalize p.info.clipboard = cb))
  let sends := targets.filterMap (fun p =>
    let filtered := filterItems items p.info.acceptedTypes
    if filtered = [] then none else some (p, Event.mk source cb filtered))
  ⟨⟨h.peers, latest, latestSource, h.listenerSet⟩, sends, []⟩

/-- `Hub.Latest`: the most recent items and source for the named clipboard,
optionally filtered by accepted MIME types. -/
def Hub.Latest (h : Hub) (clipboardName : String) (accept : List String) :
    List ClipboardItem × String :=
  let cb := canonicalize clipboardName
  (filterItems (lookupD h.latest cb []) accept, lookupD h.latestSource cb "")

/-- A hub operation invoked by some caller. -/
inductive Op
  | register (p : Peer)
  | unregister (p : Peer)
  | publish (items : List ClipboardItem) (ns o s : String)
deriving DecidableEq, Repr

/-- Run one operation on the hub. -/
def Hub.step (h : Hub) : Op → OpOut
  | .register p => h.Register p
  | .unregister p => h.Unregister p
  | .publish items ns o s => h.Publish items ns o s

/-- Run a sequence of operations, keeping only the final hub state. -/
def Hub.run (h : Hub) : List Op → Hub
  | [] => h
  | op :: ops => ((h.step op).hub).run ops

/-- Run a sequence of operations, collecting every `Send` call in order. -/
def Hub.trace (h : Hub) : List Op → List (Peer × Event)
  | [] => []
  | op :: ops => (h.step op).sends ++ ((h.step op).hub).trace ops

/-- The events a given peer id receives, in delivery order. -/
def sendsTo (i : String) (tr : List (Peer × Event)) : List Event :=
  (tr.filter (fun pe => pe.1.id = i)).map (fun pe => pe.2)

/-- One `Hub.Publish` call, as data. -/
structure Pub where
  items : List ClipboardItem
  ns : String
  origin : String
  source : String
deriving DecidableEq, Repr

/-- The publish operation of a `Pub`. -/
def Pub.op (p : Pub) : Op := .publish p.items p.ns p.origin p.source

/-- The most recent publish whose canonicalized clipboard name equals `cb`. -/
def findLastPub : List Pub → String → Option Pub
  | [], _ => none
  | p :: ps, cb =>
    match findLastPub ps cb with
    | some q => some q
    | none => if canonicalize p.ns = cb then some p else none

/-- `federation.upstreamOriginID`. -/
def upstreamOriginID : String := "federation/upstream"

/-- `federation.reconnectDelay`, in seconds. -/
def reconnectDelay : Nat := 1

/-- `federation.maxReconnect`, in seconds. -/
def maxReconnect : Nat := 30

/-- The outcome of one `runStream` attempt inside `streamLoop`:
`ok` is a nil error; `canceled` covers `context.Canceled` and gRPC
`codes.Canceled`; `failedOpen` is a failed `Watch` call; and
`transientAfterOpen` is a stream that opened successfully and later ended
with a transient error. -/
inductive StreamResult
  | ok
  | canceled
  | failedOpen
  | transientAfterOpen
deriving DecidableEq, Repr

/-- Whether `streamLoop` returns on this `runStream` outcome. -/
def StreamResult.exits : StreamResult → Bool
  | .ok => true
  | .canceled => true
  | .failedOpen => false
  | .transientAfterOpen => false

/-- `federation.streamLoop`, abstracted over the outcomes of the successive
`runStream` attempts: the delays (seconds) the loop sleeps between attempts.
The delay starts at the given value; after sleeping, the delay is doubled
only while it is below `maxReconnect`. A nil or canceled outcome ends the
loop with no further sleeps. -/
def streamLoopSleeps : Nat → List StreamResult → List Nat
  | _, [] => []
  | d, r :: rs =>
    if r.exits then []
    else d :: streamLoopSleeps (if d < maxReconnect then d * 2 else d) rs

/-- Some non-broadcast peer is subscribed (canonically) to clipboard `cb`. -/
def MemNS (ps : List Peer) (cb : String) : Prop :=
  ∃ p ∈ ps, p.isBroadcast = false ∧ canonicalize p.info.clipboard = cb

/-- Some non-broadcast peer on clipboard `cb` accepts everything. -/
def AllNS (ps : List Peer) (cb : String) : Prop :=
  ∃ p ∈ ps, p.isBroadcast = false ∧ canonicalize p.info.clipboard = cb ∧
    p.info.acceptedTypes = []

/-- Some non-broadcast peer on clipboard `cb` accepts MIME type `t`. -/
def AccNS (ps : List Peer) (cb t : String) : Prop :=
  ∃ p ∈ ps, p.isBroadcast = false ∧ canonicalize p.info.clipboard = cb ∧
    t ∈ p.info.acceptedTypes

/-- Invariant tying the accumulator of `clipboardFiltersLocked` to the
peers already folded: keys are the clipboards with a non-broadcast watcher,
each entry is unbounded exactly when some watcher accepts everything, and
otherwise its accept set contains exactly the watchers' accepted types. -/
def FiltersInv (ps : List Peer) (m : List (String × FilterEntry)) : Prop :=
  (m.map Prod.fst).Nodup ∧
  (∀ cb, (findE m cb).isSome ↔ MemNS ps cb) ∧
  (∀ cb e, findE m cb = some e →
    e.accepts.Nodup ∧
    (e.all = true ↔ AllNS ps cb) ∧
    (e.all = true → e.accepts = []) ∧
    (e.all = false → ∀ t, t ∈ e.accepts ↔ AccNS ps cb t))

/-- The delays reachable by `streamLoop` starting from `reconnectDelay`:
powers of two from 1 up to 32 (the first doubled value at or above the
30-second ceiling, where doubling stops). -/
def goodDelay (d : Nat) : Prop :=
  d = 1 ∨ d = 2 ∨ d = 4 ∨ d = 8 ∨ d = 16 ∨ d = 32

instance (d : Nat) : Decidable (goodDelay d) := by
  unfold goodDelay
  infer_instance

/-- Example item: a short text payload. -/
def itText : ClipboardItem := ⟨"text/plain", [104, 105]⟩

/-- Example item: a short image payload. -/
def itPng : ClipboardItem := ⟨"image/png", [1, 2, 3]⟩

/-- Example peer: accepts everything on the default clipboard. -/
def peerA : Peer := ⟨"a", ⟨"alice", "", []⟩, false⟩

/-- Example peer: accepts only text on the default clipboard. -/
def peerB : Peer := ⟨"b", ⟨"bob", "default", ["text/plain"]⟩, false⟩

/-- Example broadcast peer shaped like the federation upstream. -/
def peerUp : Peer := ⟨upstreamOriginID, ⟨"up", "", []⟩, true⟩

/-- Example broadcast peer with an id fresh for `hubEx`. -/
def peerUp2 : Peer := ⟨"up2", ⟨"up2", "", []⟩, true⟩

/-- Example peer accepting only "b" on the default clipboard. -/
def pFb : Peer := ⟨"p1", ⟨"s1", "default", ["b"]⟩, false⟩

/-- Example peer accepting only "a" on the default clipboard. -/
def pFa : Peer := ⟨"p2", ⟨"s2", "default", ["a"]⟩, false⟩

/-- Example peer on clipboard "ns1". -/
def pNs1 : Peer := ⟨"q1", ⟨"s1", "ns1", ["a"]⟩, false⟩

/-- Example peer on clipboard "ns2". -/
def pNs2 : Peer := ⟨"q2", ⟨"s2", "ns2", ["b"]⟩, false⟩

/-- Example hub: a text and an image item published on the default clipboard
by "srv", no peers registered. -/
def hubPub : Hub := (Hub.new.Publish [itText, itPng] "" "x" "srv").hub

/-- Example hub: peers `peerA`, `peerB`, `peerUp` registered, a text item
published on the default clipboard by "srv", listener set. -/
def hubEx : Hub :=
  Hub.run (Hub.new.setListener)
    [.register peerA, .register peerB, .register peerUp,
     .publish [itText, itPng] "" "x" "srv"]

section Lemmas

theorem lookupD_setA_self {α : Type} (m : List (String × α)) (k : String)
    (v d : α) : lookupD (setA m k v) k d = v := by
  induction m with
  | nil => simp [setA, lookupD]
  | cons kv rest ih =>
    by_cases hk : kv.1 = k
    · simp [setA, hk, lookupD]
    · simp [setA, hk, lookupD, ih]

theorem lookupD_setA_ne {α : Type} (m : List (String × α)) (k k' : String)
    (v d : α) (hne : k' ≠ k) : lookupD (setA m k v) k' d = lookupD m k' d := by
  have hkk : k ≠ k' := fun h => hne h.symm
  induction m with
  | nil => simp [setA, lookupD, hkk]
  | cons kv rest ih =>
    by_cases hk : kv.1 = k
    · subst hk
      simp [setA, lookupD, hkk]
    · by_cases hk' : kv.1 = k'
      · simp [setA, hk, lookupD, hk', hne]
      · simp [setA, hk, lookupD, hk', ih]

theorem canonicalize_ne_empty (s : String) : canonicalize s ≠ "" := by
  unfold canonicalize
  split
  · intro h
    exact absurd h (by decide)
  · assumption

theorem canonicalize_idem (s : String) :
    canonicalize (canonicalize s) = canonicalize s := by
  unfold canonicalize
  split
  · simp [DefaultClipboard]
  · simp [*]

theorem filterItems_nil (accepted : List String) :
    filterItems [] accepted = [] := by
  unfold filterItems
  split <;> simp

theorem filterItems_empty_accepts (items : List ClipboardItem) :
    filterItems items [] = items := by
  simp [filterItems]

/-- Membership characterization of the sends of one `Publish` call. -/
theorem mem_publish_sends (h : Hub) (items : List ClipboardItem)
    (ns o s : String) (p : Peer) (ev : Event) :
    (p, ev) ∈ (h.Publish items ns o s).sends ↔
      p ∈ h.peers ∧ p.id ≠ o ∧
      (p.isBroadcast = true ∨ canonicalize p.info.clipboard = canonicalize ns) ∧
      filterItems items p.info.acceptedTypes ≠ [] ∧
      ev = ⟨s, canonicalize ns, filterItems items p.info.acceptedTypes⟩ := by
  simp only [Hub.Publish, List.mem_filterMap, List.mem_filter,
    decide_eq_true_eq]
  constructor
  · rintro ⟨a, ⟨ha, hid, hbc⟩, hf⟩
    by_cases hfe : filterItems items a.info.acceptedTypes = []
    · simp [hfe] at hf
    · simp only [hfe, if_false, Option.some.injEq, Prod.mk.injEq] at hf
      rcases hf with ⟨rfl, hev⟩
      exact ⟨ha, hid, hbc, hfe, hev.symm⟩
  · rintro ⟨hp, hne, hbc, hfne, rfl⟩
    exact ⟨p, ⟨hp, hne, hbc⟩, by simp [hfne]⟩

/-- Effect of one publish on a later `Latest` query with empty accepts. -/
theorem latest_after_publish (h : Hub) (items : List ClipboardItem)
    (ns o s ns' : String) :
    (h.Publish items ns o s).hub.Latest ns' [] =
      if canonicalize ns = canonicalize ns' then (items, s)
      else h.Latest ns' [] := by
  by_cases hc : canonicalize ns = canonicalize ns'
  · simp only [Hub.Publish, Hub.Latest, filterItems_empty_accepts, hc,
      if_true, lookupD_setA_self, if_pos]
  · have hc' : canonicalize ns' ≠ canonicalize ns := fun h' => hc h'.symm
    simp only [Hub.Publish, Hub.Latest, filterItems_empty_accepts, hc,
      if_false, lookupD_setA_ne _ _ _ _ _ hc']

/-- `Latest` over a run of publishes, generalized over the starting hub. -/
theorem run_pubs_latest (pubs : List Pub) (h : Hub) (ns : String) :
    (h.run (pubs.map Pub.op)).Latest ns [] =
      (match findLastPub pubs (canonicalize ns) with
       | some p => (p.items, p.source)
       | none => h.Latest ns []) := by
  induction pubs generalizing h with
  | nil => rfl
  | cons p ps ih =>
    show ((h.Publish p.items p.ns p.origin p.source).hub.run
        (ps.map Pub.op)).Latest ns [] = _
    rw [ih]
    rcases hfind : findLastPub ps (canonicalize ns) with _ | q
    · simp only [findLastPub, hfind, latest_after_publish]
      by_cases hc : canonicalize p.ns = canonicalize ns
      · simp [hc]
      · simp [hc]
    · simp only [findLastPub, hfind]

theorem sendsTo_append (i : String) (a b : List (Peer × Event)) :
    sendsTo i (a ++ b) = sendsTo i a ++ sendsTo i b := by
  simp [sendsTo, List.filter_append]

theorem insertPeer_fresh (ps : List Peer) (p : Peer)
    (hfresh : ∀ q ∈ ps, q.id ≠ p.id) : insertPeer ps p = ps ++ [p] := by
  induction ps with
  | nil => rfl
  | cons q rest ih =>
    have hq : q.id ≠ p.id := hfresh q (by simp)
    simp only [insertPeer, hq, if_false, List.cons_append, List.cons.injEq,
      true_and]
    exact ih (fun r hr => hfresh r (by simp [hr]))

theorem filtersStep_broadcast (m : List (String × FilterEntry)) (p : Peer)
    (hb : p.isBroadcast = true) : filtersStep m p = m := by
  simp [filtersStep, hb]

theorem foldl_filtersStep_filter (ps : List Peer) (f : Peer → Bool)
    (hbc : ∀ q ∈ ps, f q = false → q.isBroadcast = true)
    (m : List (String × FilterEntry)) :
    (ps.filter f).foldl filtersStep m = ps.foldl filtersStep m := by
  induction ps generalizing m with
  | nil => rfl
  | cons q rest ih =>
    have ihq : ∀ r ∈ rest, f r = false → r.isBroadcast = true :=
      fun r hr => hbc r (by simp [hr])
    by_cases hq : f q = true
    · simp only [List.filter_cons, hq, if_true, List.foldl_cons]
      exact ih ihq (filtersStep m q)
    · have hq' : f q = false := by revert hq; cases f q <;> simp
      have hb := hbc q (by simp) hq'
      simp only [List.filter_cons, hq', Bool.false_eq_true, if_false,
        List.foldl_cons, filtersStep_broadcast m q hb]
      exact ih ihq m

theorem clipboardFilters_filter_broadcast (ps : List Peer) (f : Peer → Bool)
    (hbc : ∀ q ∈ ps, f q = false → q.isBroadcast = true) :
    clipboardFilters (ps.filter f) = clipboardFilters ps := by
  unfold clipboardFilters
  rw [foldl_filtersStep_filter ps f hbc]

theorem clipboardFilters_append_broadcast (ps : List Peer) (p : Peer)
    (hb : p.isBroadcast = true) :
    clipboardFilters (ps ++ [p]) = clipboardFilters ps := by
  unfold clipboardFilters
  rw [List.foldl_append]
  simp [filtersStep_broadcast _ p hb]

theorem mem_insertAccept (acc : List String) (t x : String) :
    x ∈ insertAccept acc t ↔ x ∈ acc ∨ x = t := by
  unfold insertAccept
  by_cases ht : t ∈ acc
  · simp only [ht, if_true]
    constructor
    · exact Or.inl
    · rintro (hx | rfl)
      · exact hx
      · exact ht
  · simp [ht]

theorem nodup_insertAccept (acc : List String) (t : String)
    (hn : acc.Nodup) : (insertAccept acc t).Nodup := by
  unfold insertAccept
  by_cases ht : t ∈ acc
  · simpa [ht]
  · simp only [ht, if_false]
    refine List.Nodup.append hn (by simp) ?_
    intro a ha hb
    rw [List.mem_singleton] at hb
    subst hb
    exact ht ha

theorem mem_foldl_insertAccept (ts acc : List String) (x : String) :
    x ∈ ts.foldl insertAccept acc ↔ x ∈ acc ∨ x ∈ ts := by
  induction ts generalizing acc with
  | nil => simp
  | cons t rest ih =>
    simp only [List.foldl_cons, ih, mem_insertAccept, List.mem_cons]
    tauto

theorem nodup_foldl_insertAccept (ts acc : List String)
    (hn : acc.Nodup) : (ts.foldl insertAccept acc).Nodup := by
  induction ts generalizing acc with
  | nil => simpa
  | cons t rest ih => exact ih _ (nodup_insertAccept acc t hn)

theorem findE_setE_self (m : List (String × FilterEntry)) (k : String)
    (e : FilterEntry) : findE (setE m k e) k = some e := by
  induction m with
  | nil => simp [setE, findE]
  | cons kv rest ih =>
    by_cases hk : kv.1 = k
    · simp [setE, hk, findE]
    · simp [setE, hk, findE, ih]

theorem findE_setE_ne (m : List (String × FilterEntry)) (k k' : String)
    (e : FilterEntry) (hne : k' ≠ k) :
    findE (setE m k e) k' = findE m k' := by
  have hkk : k ≠ k' := fun h => hne h.symm
  induction m with
  | nil => simp [setE, findE, hkk]
  | cons kv rest ih =>
    by_cases hk : kv.1 = k
    · subst hk
      simp [setE, findE, hkk]
    · by_cases hk' : kv.1 = k'
      · simp [setE, hk, findE, hk', hne]
      · simp [setE, hk, findE, hk', ih]

theorem findE_eq_none_iff (m : List (String × FilterEntry)) (k : String) :
    findE m k = none ↔ k ∉ m.map Prod.fst := by
  induction m with
  | nil => simp [findE]
  | cons kv rest ih =>
    by_cases hk : kv.1 = k
    · simp [findE, hk]
    · have hk' : k ≠ kv.1 := fun h => hk h.symm
      simp [findE, hk, ih, hk']

theorem keys_setE_found (m : List (String × FilterEntry)) (k : String)
    (e : FilterEntry) (hf : findE m k ≠ none) :
    (setE m k e).map Prod.fst = m.map Prod.fst := by
  induction m with
  | nil => simp [findE] at hf
  | cons kv rest ih =>
    by_cases hk : kv.1 = k
    · simp [setE, hk]
    · simp only [findE, hk, if_false] at hf
      simp [setE, hk, ih hf]

theorem keys_setE_none (m : List (String × FilterEntry)) (k : String)
    (e : FilterEntry) (hf : findE m k = none) :
    (setE m k e).map Prod.fst = m.map Prod.fst ++ [k] := by
  induction m with
  | nil => simp [setE]
  | cons kv rest ih =>
    by_cases hk : kv.1 = k
    · simp [findE, hk] at hf
    · simp only [findE, hk, if_false] at hf
      simp [setE, hk, ih hf]

theorem mem_of_findE (m : List (String × FilterEntry)) (k : String)
    (e : FilterEntry) (hf : findE m k = some e) : (k, e) ∈ m := by
  induction m with
  | nil => simp [findE] at hf
  | cons kv rest ih =>
    by_cases hk : kv.1 = k
    · simp only [findE, hk, if_true, Option.some.injEq] at hf
      subst hf
      subst hk
      exact List.mem_cons_self kv rest
    · simp only [findE, hk, if_false] at hf
      exact List.mem_cons_of_mem kv (ih hf)

theorem findE_of_mem (m : List (String × FilterEntry)) (k : String)
    (e : FilterEntry) (hnd : (m.map Prod.fst).Nodup) (hm : (k, e) ∈ m) :
    findE m k = some e := by
  induction m with
  | nil => simp at hm
  | cons kv rest ih =>
    rw [List.map_cons, List.nodup_cons] at hnd
    rcases List.mem_cons.mp hm with hm1 | hm1
    · rw [← hm1]
      simp [findE]
    · have hk : kv.1 ≠ k := by
        intro hk
        exact hnd.1 (hk ▸ List.mem_map.mpr ⟨(k, e), hm1, rfl⟩)
      simp only [findE, hk, if_false]
      exact ih hnd.2 hm1

theorem MemNS_append (ps : List Peer) (p : Peer) (cb : String) :
    MemNS (ps ++ [p]) cb ↔
      MemNS ps cb ∨
      (p.isBroadcast = false ∧ canonicalize p.info.clipboard = cb) := by
  simp only [MemNS, List.mem_append, List.mem_singleton]
  constructor
  · rintro ⟨q, hq | rfl, hx⟩
    · exact Or.inl ⟨q, hq, hx⟩
    · exact Or.inr hx
  · rintro (⟨q, hq, hx⟩ | hx)
    · exact ⟨q, Or.inl hq, hx⟩
    · exact ⟨p, Or.inr rfl, hx⟩

theorem AllNS_append (ps : List Peer) (p : Peer) (cb : String) :
    AllNS (ps ++ [p]) cb ↔
      AllNS ps cb ∨
      (p.isBroadcast = false ∧ canonicalize p.info.clipboard = cb ∧
        p.info.acceptedTypes = []) := by
  simp only [AllNS, List.mem_append, List.mem_singleton]
  constructor
  · rintro ⟨q, hq | rfl, hx⟩
    · exact Or.inl ⟨q, hq, hx⟩
    · exact Or.inr hx
  · rintro (⟨q, hq, hx⟩ | hx)
    · exact ⟨q, Or.inl hq, hx⟩
    · exact ⟨p, Or.inr rfl, hx⟩

theorem AccNS_append (ps : List Peer) (p : Peer) (cb t : String) :
    AccNS (ps ++ [p]) cb t ↔
      AccNS ps cb t ∨
      (p.isBroadcast = false ∧ canonicalize p.info.clipboard = cb ∧
        t ∈ p.info.acceptedTypes) := by
  simp only [AccNS, List.mem_append, List.mem_singleton]
  constructor
  · rintro ⟨q, hq | rfl, hx⟩
    · exact Or.inl ⟨q, hq, hx⟩
    · exact Or.inr hx
  · rintro (⟨q, hq, hx⟩ | hx)
    · exact ⟨q, Or.inl hq, hx⟩
    · exact ⟨p, Or.inr rfl, hx⟩

theorem AllNS_memNS (ps : List Peer) (cb : String) (h : AllNS ps cb) :
    MemNS ps cb := by
  rcases h with ⟨p, hp, h1, h2, _⟩
  exact ⟨p, hp, h1, h2⟩

theorem AccNS_memNS (ps : List Peer) (cb t : String) (h : AccNS ps cb t) :
    MemNS ps cb := by
  rcases h with ⟨p, hp, h1, h2, _⟩
  exact ⟨p, hp, h1, h2⟩

theorem memNS_transfer (ps : List Peer) (p : Peer) (cb : String)
    (hdead : ¬ (p.isBroadcast = false ∧ canonicalize p.info.clipboard = cb)) :
    MemNS (ps ++ [p]) cb ↔ MemNS ps cb := by
  rw [MemNS_append]
  constructor
  · rintro (h | h)
    · exact h
    · exact absurd h hdead
  · exact Or.inl

theorem entry_transfer (ps : List Peer) (p : Peer) (cb : String)
    (hdead : ¬ (p.isBroadcast = false ∧ canonicalize p.info.clipboard = cb))
    (e : FilterEntry)
    (h1 : e.accepts.Nodup)
    (h2 : e.all = true ↔ AllNS ps cb)
    (h3 : e.all = true → e.accepts = [])
    (h4 : e.all = false → ∀ t, t ∈ e.accepts ↔ AccNS ps cb t) :
    e.accepts.Nodup ∧
    (e.all = true ↔ AllNS (ps ++ [p]) cb) ∧
    (e.all = true → e.accepts = []) ∧
    (e.all = false → ∀ t, t ∈ e.accepts ↔ AccNS (ps ++ [p]) cb t) := by
  refine ⟨h1, ?_, h3, fun hall t => ?_⟩
  · rw [h2, AllNS_append]
    constructor
    · exact Or.inl
    · rintro (h | ⟨ha, hc, _⟩)
      · exact h
      · exact absurd ⟨ha, hc⟩ hdead
  · rw [h4 hall t, AccNS_append]
    constructor
    · exact Or.inl
    · rintro (h | ⟨ha, hc, _⟩)
      · exact h
      · exact absurd ⟨ha, hc⟩ hdead

theorem filtersInv_step (ps : List Peer) (m : List (String × FilterEntry))
    (p : Peer) (hinv : FiltersInv ps m) :
    FiltersInv (ps ++ [p]) (filtersStep m p) := by
  obtain ⟨hnd, hkeys, hent⟩ := hinv
  by_cases hb : p.isBroadcast = true
  · rw [filtersStep_broadcast m p hb]
    have hdead : ∀ cb, ¬ (p.isBroadcast = false ∧
        canonicalize p.info.clipboard = cb) := by
      intro cb hx
      rw [hb] at hx
      exact absurd hx.1 (by simp)
    refine ⟨hnd, fun cb => ?_, fun cb e hf => ?_⟩
    · rw [memNS_transfer ps p cb (hdead cb)]
      exact hkeys cb
    · obtain ⟨h1, h2, h3, h4⟩ := hent cb e hf
      exact entry_transfer ps p cb (hdead cb) e h1 h2 h3 h4
  · have hb' : p.isBroadcast = false := by
      revert hb
      cases p.isBroadcast <;> simp
    have hstep : filtersStep m p =
        setE m (canonicalize p.info.clipboard)
          (updateEntry
            ((findE m (canonicalize p.info.clipboard)).getD ⟨false, []⟩)
            p.info.acceptedTypes) := by
      simp [filtersStep, hb']
    rw [hstep]
    rcases hf0 : findE m (canonicalize p.info.clipboard) with _ | eold
    · -- fresh entry for the peer's clipboard
      have hnomem : ¬ MemNS ps (canonicalize p.info.clipboard) := by
        rw [← hkeys]
        simp [hf0]
      have hkeysnew : ((setE m (canonicalize p.info.clipboard)
          (updateEntry (Option.getD none ⟨false, []⟩)
            p.info.acceptedTypes)).map Prod.fst).Nodup := by
        rw [keys_setE_none m _ _ hf0]
        refine List.Nodup.append hnd (by simp) ?_
        intro a ha hb2
        rw [List.mem_singleton] at hb2
        subst hb2
        exact (findE_eq_none_iff m _).mp hf0 ha
      refine ⟨hkeysnew, fun cb => ?_, fun cb e hf => ?_⟩
      · by_cases hc : cb = canonicalize p.info.clipboard
        · subst hc
          rw [findE_setE_self]
          simp only [Option.isSome_some, true_iff]
          exact (MemNS_append ps p _).mpr (Or.inr ⟨hb', rfl⟩)
        · have hc' : cb ≠ canonicalize p.info.clipboard := hc
          rw [findE_setE_ne m _ cb _ hc',
            memNS_transfer ps p cb (fun hx => hc' (hx.2.symm))]
          exact hkeys cb
      · by_cases hc : cb = canonicalize p.info.clipboard
        · subst hc
          rw [findE_setE_self] at hf
          have he : e = updateEntry (Option.getD none ⟨false, []⟩)
              p.info.acceptedTypes := (Option.some.inj hf).symm
          subst he
          by_cases hae : p.info.acceptedTypes = []
          · have hupd : updateEntry (Option.getD none ⟨false, []⟩)
                p.info.acceptedTypes = ⟨true, []⟩ := by
              simp [updateEntry, hae]
            rw [hupd]
            refine ⟨by simp, ?_, by simp, by simp⟩
            simp only [true_iff]
            exact (AllNS_append ps p _).mpr (Or.inr ⟨hb', rfl, hae⟩)
          · have hupd : updateEntry (Option.getD none ⟨false, []⟩)
                p.info.acceptedTypes =
                ⟨false, p.info.acceptedTypes.foldl insertAccept []⟩ := by
              simp [updateEntry, hae]
            rw [hupd]
            refine ⟨nodup_foldl_insertAccept _ _ (by simp), ?_, by simp,
              fun _ t => ?_⟩
            · simp only [Bool.false_eq_true, false_iff]
              rw [AllNS_append]
              rintro (h | ⟨_, _, h⟩)
              · exact hnomem (AllNS_memNS ps _ h)
              · exact hae h
            · rw [mem_foldl_insertAccept, AccNS_append]
              simp only [List.not_mem_nil, false_or]
              constructor
              · intro ht
                exact Or.inr ⟨hb', by trivial, ht⟩
              · rintro (h | ⟨_, _, h⟩)
                · exact absurd (AccNS_memNS ps _ t h) hnomem
                · exact h
        · have hc' : cb ≠ canonicalize p.info.clipboard := hc
          rw [findE_setE_ne m _ cb _ hc'] at hf
          obtain ⟨h1, h2, h3, h4⟩ := hent cb e hf
          exact entry_transfer ps p cb (fun hx => hc' (hx.2.symm)) e h1 h2 h3 h4
    · -- existing entry for the peer's clipboard
      have hkeysnew : ((setE m (canonicalize p.info.clipboard)
          (updateEntry (Option.getD (some eold) ⟨false, []⟩)
            p.info.acceptedTypes)).map Prod.fst).Nodup := by
        rw [keys_setE_found m _ _ (by simp [hf0])]
        exact hnd
      obtain ⟨ho1, ho2, ho3, ho4⟩ := hent _ eold hf0
      refine ⟨hkeysnew, fun cb => ?_, fun cb e hf => ?_⟩
      · by_cases hc : cb = canonicalize p.info.clipboard
        · subst hc
          rw [findE_setE_self]
          simp only [Option.isSome_some, true_iff]
          exact (MemNS_append ps p _).mpr (Or.inr ⟨hb', rfl⟩)
        · have hc' : cb ≠ canonicalize p.info.clipboard := hc
          rw [findE_setE_ne m _ cb _ hc',
            memNS_transfer ps p cb (fun hx => hc' (hx.2.symm))]
          exact hkeys cb
      · by_cases hc : cb = canonicalize p.info.clipboard
        · subst hc
          rw [findE_setE_self] at hf
          have he : e = updateEntry (Option.getD (some eold) ⟨false, []⟩)
              p.info.acceptedTypes := (Option.some.inj hf).symm
          subst he
          simp only [Option.getD_some]
          by_cases hall : eold.all = true
          · have hupd : updateEntry eold p.info.acceptedTypes = eold := by
              simp [updateEntry, hall]
            rw [hupd]
            refine ⟨ho1, ?_, ho3, fun hfa => ?_⟩
            · rw [ho2, AllNS_append]
              constructor
              · exact Or.inl
              · intro _
                exact ho2.mp hall
            · rw [hall] at hfa
              exact absurd hfa (by simp)
          · have hall' : eold.all = false := by
              revert hall
              cases eold.all <;> simp
            by_cases hae : p.info.acceptedTypes = []
            · have hupd : updateEntry eold p.info.acceptedTypes =
                  ⟨true, []⟩ := by
                simp [updateEntry, hall', hae]
              rw [hupd]
              refine ⟨by simp, ?_, by simp, by simp⟩
              simp only [true_iff]
              exact (AllNS_append ps p _).mpr (Or.inr ⟨hb', rfl, hae⟩)
            · have hupd : updateEntry eold p.info.acceptedTypes =
                  ⟨false, p.info.acceptedTypes.foldl insertAccept
                    eold.accepts⟩ := by
                simp [updateEntry, hall', hae]
              rw [hupd]
              refine ⟨nodup_foldl_insertAccept _ _ ho1, ?_, by simp,
                fun _ t => ?_⟩
              · simp only [Bool.false_eq_true, false_iff]
                rw [AllNS_append]
                rintro (h | ⟨_, _, h⟩)
                · exact absurd (ho2.mpr h) (by simp [hall'])
                · exact hae h
              · rw [mem_foldl_insertAccept, AccNS_append, ho4 hall' t]
                constructor
                · rintro (h | h)
                  · exact Or.inl h
                  · exact Or.inr ⟨hb', rfl, h⟩
                · rintro (h | ⟨_, _, h⟩)
                  · exact Or.inl h
                  · exact Or.inr h
        · have hc' : cb ≠ canonicalize p.info.clipboard := hc
          rw [findE_setE_ne m _ cb _ hc'] at hf
          obtain ⟨h1, h2, h3, h4⟩ := hent cb e hf
          exact entry_transfer ps p cb (fun hx => hc' (hx.2.symm)) e h1 h2 h3 h4

theorem filtersInv_foldl_aux (qs : List Peer) (ps : List Peer)
    (m : List (String × FilterEntry)) (hinv : FiltersInv ps m) :
    FiltersInv (ps ++ qs) (qs.foldl filtersStep m) := by
  induction qs generalizing ps m with
  | nil => simpa using hinv
  | cons q rest ih =>
    have h2 := ih (ps ++ [q]) (filtersStep m q) (filtersInv_step ps m q hinv)
    simpa [List.append_assoc] using h2

theorem filtersInv_nil : FiltersInv [] [] := by
  refine ⟨by simp, fun cb => ?_, fun cb e hf => ?_⟩
  · simp [findE, MemNS]
  · simp [findE] at hf

theorem filtersInv_full (ps : List Peer) :
    FiltersInv ps (ps.foldl filtersStep []) := by
  simpa using filtersInv_foldl_aux ps [] [] filtersInv_nil

theorem findE_isSome_iff (m : List (String × FilterEntry)) (k : String) :
    (findE m k).isSome = true ↔ k ∈ m.map Prod.fst := by
  rcases hf : findE m k with _ | e
  · simp [(findE_eq_none_iff m k).mp hf]
  · simp only [Option.isSome_some, true_iff]
    exact List.mem_map.mpr ⟨(k, e), mem_of_findE m k e hf, rfl⟩

/-- Full characterization of `clipboardFiltersLocked`: clipboards are
pairwise distinct; there is an entry exactly for each clipboard with a
non-broadcast watcher; and each entry's accept list is duplicate-free, empty
exactly when some watcher of that clipboard accepts everything, and
otherwise contains exactly the union of the watchers' accepted types. -/
theorem filters_characterization (peers : List Peer) :
    ((clipboardFilters peers).map ClipboardFilter.clipboard).Nodup ∧
    (∀ cb, (∃ f ∈ clipboardFilters peers, f.clipboard = cb) ↔
      MemNS peers cb) ∧
    (∀ f ∈ clipboardFilters peers,
      f.accepts.Nodup ∧
      (f.accepts = [] ↔ AllNS peers f.clipboard) ∧
      (∀ t, t ∈ f.accepts ↔
        (¬ AllNS peers f.clipboard ∧ AccNS peers f.clipboard t))) := by
  obtain ⟨hnd, hkeys, hent⟩ := filtersInv_full peers
  refine ⟨?_, fun cb => ?_, fun f hf => ?_⟩
  · have hmk : (clipboardFilters peers).map ClipboardFilter.clipboard
        = (peers.foldl filtersStep []).map Prod.fst := by
      unfold clipboardFilters
      rw [List.map_map]
      rfl
    rw [hmk]
    exact hnd
  · rw [← hkeys cb, findE_isSome_iff]
    unfold clipboardFilters
    constructor
    · rintro ⟨f, hf, rfl⟩
      rcases List.mem_map.mp hf with ⟨kv, hkv, rfl⟩
      exact List.mem_map.mpr ⟨kv, hkv, rfl⟩
    · intro hcb
      rcases List.mem_map.mp hcb with ⟨kv, hkv, rfl⟩
      exact ⟨⟨kv.1, if kv.2.all then [] else kv.2.accepts⟩,
        List.mem_map.mpr ⟨kv, hkv, rfl⟩, rfl⟩
  · unfold clipboardFilters at hf
    rcases List.mem_map.mp hf with ⟨kv, hkv, rfl⟩
    have hfind := findE_of_mem _ _ _ hnd hkv
    obtain ⟨h1, h2, h3, h4⟩ := hent kv.1 kv.2 hfind
    by_cases hall : kv.2.all = true
    · have hAll : AllNS peers kv.1 := h2.mp hall
      refine ⟨by simp [hall], ?_, fun t => ?_⟩
      · simp only [hall, if_true]
        exact iff_of_true trivial hAll
      · simp only [hall, if_true]
        constructor
        · intro ht
          simp at ht
        · rintro ⟨hna, _⟩
          exact absurd hAll hna
    · have hall' : kv.2.all = false := by
        revert hall
        cases kv.2.all <;> simp
      have hnAll : ¬ AllNS peers kv.1 := fun h => hall (h2.mpr h)
      have hne : kv.2.accepts ≠ [] := by
        have hmem : MemNS peers kv.1 := (hkeys kv.1).mp (by simp [hfind])
        rcases hmem with ⟨q, hq, hbq, hcq⟩
        rcases hqa : q.info.acceptedTypes with _ | ⟨t, ts⟩
        · exact absurd ⟨q, hq, hbq, hcq, hqa⟩ hnAll
        · intro hempty
          have ht : t ∈ kv.2.accepts :=
            (h4 hall' t).mpr ⟨q, hq, hbq, hcq, by simp [hqa]⟩
          rw [hempty] at ht
          simp at ht
      refine ⟨?_, ?_, fun t => ?_⟩
      · simpa [hall'] using h1
      · simp only [hall', Bool.false_eq_true, if_false]
        exact iff_of_false hne hnAll
      · simp only [hall', Bool.false_eq_true, if_false]
        rw [h4 hall' t]
        exact (iff_of_eq (congrArg _ rfl)).trans
          ⟨fun h => ⟨hnAll, h⟩, fun h => h.2⟩

theorem streamLoopSleeps_goodDelay (rs : List StreamResult) (d : Nat)
    (hd : goodDelay d) : ∀ s ∈ streamLoopSleeps d rs, goodDelay s := by
  induction rs generalizing d with
  | nil =>
    intro s hs
    simp [streamLoopSleeps] at hs
  | cons r rest ih =>
    intro s hs
    by_cases hr : r.exits = true
    · simp [streamLoopSleeps, hr] at hs
    · simp only [streamLoopSleeps, hr, Bool.false_eq_true, if_false,
        List.mem_cons] at hs
      rcases hs with rfl | hs
      · exact hd
      · refine ih _ ?_ s hs
        rcases hd with rfl | rfl | rfl | rfl | rfl | rfl <;> decide

end Lemmas

/-- C2: after any sequence of publishes, `Latest(ns, [])` returns the items
and source of the most recent publish whose canonicalized clipboard equals
`canon(ns)`, or an empty sequence and empty source when there is none; and an
empty accepts argument leaves items unfiltered. -/
theorem latest_is_most_recent_publish (pubs : List Pub) (ns : String) :
    (Hub.new.run (pubs.map Pub.op)).Latest ns [] =
      (match findLastPub pubs (canonicalize ns) with
       | some p => (p.items, p.source)
       | none => ([], "")) ∧
    ∀ items : List ClipboardItem, filterItems items [] = items := by
  refine ⟨?_, filterItems_empty_accepts⟩
  rw [run_pubs_latest]
  rcases findLastPub pubs (canonicalize ns) with _ | q
  · rfl
  · rfl

/-- C3: a newly registered non-broadcast peer receives, exactly once and
before any other event, the current latest value of its canonical clipboard
filtered by its accepted types, with the stored source — and receives no
replay when no latest value exists or the filtered result is empty: its
event stream over any continuation starts with exactly that replay. -/
theorem register_freshness_replay (h : Hub) (p : Peer)
    (_hb : p.isBroadcast = false) (ops : List Op) :
    sendsTo p.id (h.trace (Op.register p :: ops)) =
      (if lookupD h.latest (canonicalize p.info.clipboard) [] = [] ∨
          filterItems (lookupD h.latest (canonicalize p.info.clipboard) [])
            p.info.acceptedTypes = [] then []
       else
        [Event.mk (lookupD h.latestSource (canonicalize p.info.clipboard) "")
          (canonicalize p.info.clipboard)
          (filterItems (lookupD h.latest (canonicalize p.info.clipboard) [])
            p.info.acceptedTypes)]) ++
      sendsTo p.id (((h.Register p).hub).trace ops) := by
  show sendsTo p.id ((h.Register p).sends ++ ((h.Register p).hub).trace ops)
      = _
  rw [sendsTo_append]
  congr 1
  simp only [Hub.Register]
  by_cases h1 : lookupD h.latest (canonicalize p.info.clipboard) [] = []
  · simp [h1, sendsTo]
  · by_cases h2 : filterItems (lookupD h.latest (canonicalize p.info.clipboard) [])
        p.info.acceptedTypes = []
    · simp [h1, h2, sendsTo]
    · simp [h1, h2, sendsTo]

/-- Witness for C3: on a hub holding a published text and image item,
registering the text-only peer `peerB` delivers exactly the filtered replay. -/
theorem register_freshness_replay_witness :
    sendsTo "b" (hubPub.trace [Op.register peerB]) =
      [Event.mk "srv" "default" [itText]] := by
  show sendsTo peerB.id (hubPub.trace [Op.register peerB]) = _
  rw [register_freshness_replay hubPub peerB rfl []]
  decide

/-- C4: when a listener is set, every `Register` and every `Unregister`
results in exactly one listener callback carrying the post-change filter
snapshot (and none when no listener is set); and broadcast peers contribute
nothing to the snapshot: adding a broadcast peer under a fresh id, or
removing an id under which only broadcast peers are registered, leaves the
computed snapshot unchanged. -/
theorem listener_callback_and_broadcast_exclusion (h : Hub) (p : Peer) :
    (h.listenerSet = true →
      (h.Register p).listenerCalls =
          [clipboardFilters (insertPeer h.peers p)] ∧
      (h.Unregister p).listenerCalls =
          [clipboardFilters (removePeer h.peers p.id)]) ∧
    (h.listenerSet = false →
      (h.Register p).listenerCalls = [] ∧
      (h.Unregister p).listenerCalls = []) ∧
    (p.isBroadcast = true →
      ((∀ q ∈ h.peers, q.id ≠ p.id) →
        clipboardFilters (insertPeer h.peers p) = clipboardFilters h.peers) ∧
      ((∀ q ∈ h.peers, q.id = p.id → q.isBroadcast = true) →
        clipboardFilters (removePeer h.peers p.id) = clipboardFilters h.peers)) := by
  refine ⟨fun hl => ?_, fun hl => ?_, fun hb => ⟨fun hfresh => ?_, fun hrem => ?_⟩⟩
  · simp [Hub.Register, Hub.Unregister, hl]
  · simp [Hub.Register, Hub.Unregister, hl]
  · rw [insertPeer_fresh h.peers p hfresh,
      clipboardFilters_append_broadcast h.peers p hb]
  · exact clipboardFilters_filter_broadcast h.peers _
      (fun q hq hf => hrem q hq (by simpa using hf))

/-- Witness for C4 on a concrete hub with a listener and a fresh broadcast
peer: one callback per register/unregister with the post-change snapshot,
and the snapshot is unchanged by the broadcast peer. -/
theorem listener_callback_and_broadcast_exclusion_witness :
    (hubEx.Register peerUp2).listenerCalls =
        [clipboardFilters (insertPeer hubEx.peers peerUp2)] ∧
    clipboardFilters (insertPeer hubEx.peers peerUp2) =
        clipboardFilters hubEx.peers ∧
    clipboardFilters (removePeer hubEx.peers peerUp2.id) =
        clipboardFilters hubEx.peers := by
  have h := listener_callback_and_broadcast_exclusion hubEx peerUp2
  exact ⟨(h.1 (by decide)).1,
    (h.2.2 rfl).1 (by decide),
    (h.2.2 rfl).2 (by decide)⟩

/-- C9: `Register` performs no broadcast check: any peer whose reported
clipboard is empty — canonicalized to "default" — including a broadcast peer
like the federation upstream, receives the current latest value of the
"default" clipboard when it exists and is non-empty after filtering; and the
replay a registering peer receives is independent of its broadcast flag. -/
theorem register_replays_to_broadcast_peers (h : Hub) (p : Peer)
    (hc : p.info.clipboard = "")
    (hl : lookupD h.latest DefaultClipboard [] ≠ [])
    (hf : filterItems (lookupD h.latest DefaultClipboard [])
      p.info.acceptedTypes ≠ []) :
    (h.Register p).sends =
      [(p, Event.mk (lookupD h.latestSource DefaultClipboard "")
        DefaultClipboard
        (filterItems (lookupD h.latest DefaultClipboard [])
          p.info.acceptedTypes))] ∧
    (h.Register p).sends.map Prod.snd =
      (h.Register ⟨p.id, p.info, !p.isBroadcast⟩).sends.map Prod.snd := by
  have hcb : canonicalize p.info.clipboard = DefaultClipboard := by
    simp [canonicalize, hc]
  constructor
  · simp [Hub.Register, hcb, hl, hf]
  · simp [Hub.Register, hcb, hl, hf]

/-- Witness for C9: registering the broadcast upstream peer on a hub whose
"default" clipboard holds published items replays those items to it. -/
theorem register_replays_to_broadcast_peers_witness :
    (hubPub.Register peerUp).sends =
      [(peerUp, Event.mk "srv" "default" [itText, itPng])] := by
  have h := register_replays_to_broadcast_peers hubPub peerUp rfl
    (by decide) (by decide)
  rw [h.1]
  decide

/-- C1: a peer receives a `Publish(items, ns, o, s)` event exactly when it is
registered, its id differs from the origin, it is broadcast or subscribed to
the canonical clipboard, and filtering the items by its accepted types is
non-empty; the event it receives carries the source, the canonical clipboard
name, and the filtered items. -/
theorem publish_send_characterization (h : Hub) (items : List ClipboardItem)
    (ns o s : String) (p : Peer) (ev : Event) :
    (p, ev) ∈ (h.Publish items ns o s).sends ↔
      p ∈ h.peers ∧ p.id ≠ o ∧
      (p.isBroadcast = true ∨ canonicalize p.info.clipboard = canonicalize ns) ∧
      filterItems items p.info.acceptedTypes ≠ [] ∧
      ev = ⟨s, canonicalize ns, filterItems items p.info.acceptedTypes⟩ :=
  mem_publish_sends h items ns o s p ev

/-- C7: when an event is published with the federation upstream sentinel as
its origin id, no peer whose id is the sentinel — in particular the upstream
peer itself — is ever sent that event, so nothing is enqueued for forwarding
to the remote broker. -/
theorem publish_upstream_origin_never_sent (h : Hub)
    (items : List ClipboardItem) (ns s : String) (p : Peer) (ev : Event)
    (hid : p.id = upstreamOriginID) :
    (p, ev) ∉ (h.Publish items ns upstreamOriginID s).sends := by
  intro hmem
  rcases (mem_publish_sends h items ns upstreamOriginID s p ev).mp hmem with
    ⟨_, hne, _⟩
  exact hne hid

/-- Witness for C7 on a concrete hub: the upstream peer is not among the
receivers of a publish whose origin is the upstream sentinel, even though it
is registered and broadcast. -/
theorem publish_upstream_origin_never_sent_witness :
    (peerUp, Event.mk "r" "default" [itText]) ∉
      (hubEx.Publish [itText] "default" upstreamOriginID "r").sends :=
  publish_upstream_origin_never_sent hubEx [itText] "default" "r" peerUp
    (Event.mk "r" "default" [itText]) rfl

/-- Counterexample for C5 as stated: folding the default-clipboard peers in
the order `pFb` (accepts ["b"]) then `pFa` (accepts ["a"]) — a possible Go
map iteration order — computes the accept list ["b", "a"], which is not
sorted; the hub never sorts, sorting happens only in the federation
consumer. -/
theorem filters_sorted_claim_counterexample :
    clipboardFilters [pFb, pFa] =
      [ClipboardFilter.mk "default" ["b", "a"]] ∧
    ¬ List.Sorted (fun a b : String => a ≤ b) ["b", "a"] := by
  constructor
  · decide
  · intro h
    have hb := List.rel_of_sorted_cons h "a" (by simp)
    rw [String.le_iff_toList_le] at hb
    exact absurd hb (by decide)

/-- C5 (amended): the filter snapshot has one entry per clipboard with a
non-broadcast peer (pairwise-distinct clipboards, in first-encounter order,
not sorted); each entry's accept list is duplicate-free, is empty exactly
when some member of the clipboard's group accepts everything, and otherwise
contains exactly the union of the group's accepted types, in
first-encounter order rather than sorted. -/
theorem filters_snapshot_union_amended (peers : List Peer) :
    ((clipboardFilters peers).map ClipboardFilter.clipboard).Nodup ∧
    (∀ cb, (∃ f ∈ clipboardFilters peers, f.clipboard = cb) ↔
      MemNS peers cb) ∧
    (∀ f ∈ clipboardFilters peers,
      f.accepts.Nodup ∧
      (f.accepts = [] ↔ AllNS peers f.clipboard) ∧
      (∀ t, t ∈ f.accepts ↔
        (¬ AllNS peers f.clipboard ∧ AccNS peers f.clipboard t))) :=
  filters_characterization peers

/-- Witness for C5 (amended) at a concrete peer list: the default clipboard
has an entry, and "b" is in its accept list exactly because some
non-broadcast default-clipboard peer accepts it and none accepts
everything. -/
theorem filters_snapshot_union_amended_witness :
    (∃ f ∈ clipboardFilters [pFb, pFa], f.clipboard = "default") ∧
    ("b" ∈ (ClipboardFilter.mk "default" ["b", "a"]).accepts ↔
      (¬ AllNS [pFb, pFa] "default" ∧ AccNS [pFb, pFa] "default" "b")) := by
  constructor
  · exact ((filters_snapshot_union_amended [pFb, pFa]).2.1 "default").mpr
      ⟨pFb, by simp, rfl, rfl⟩
  · exact ((filters_snapshot_union_amended [pFb, pFa]).2.2
      (ClipboardFilter.mk "default" ["b", "a"]) (by decide)).2.2 "b"

/-- Counterexample for C6 as stated: the two orders of the same two-peer set
— both possible Go map iteration orders, so also a model of two back-to-back
computations — yield structurally different snapshots. -/
theorem filters_perm_claim_counterexample :
    List.Perm [pNs1, pNs2] [pNs2, pNs1] ∧
    clipboardFilters [pNs1, pNs2] ≠ clipboardFilters [pNs2, pNs1] :=
  ⟨List.Perm.swap pNs2 pNs1 [], by decide⟩

/-- C6 (amended): the snapshot computation is a pure function of the peer
enumeration order, and permuting the peer list preserves the snapshot up to
order: the same clipboards occur, and entries for the same clipboard have
equal accept sets (same members, possibly in different order). -/
theorem filters_perm_equiv (xs ys : List Peer) (hp : List.Perm xs ys) :
    (∀ cb, (∃ f ∈ clipboardFilters xs, f.clipboard = cb) ↔
      (∃ f ∈ clipboardFilters ys, f.clipboard = cb)) ∧
    (∀ f g, f ∈ clipboardFilters xs → g ∈ clipboardFilters ys →
      f.clipboard = g.clipboard →
      ((f.accepts = [] ↔ g.accepts = []) ∧
       (∀ t, t ∈ f.accepts ↔ t ∈ g.accepts))) := by
  have hMem : ∀ cb, MemNS xs cb ↔ MemNS ys cb := by
    intro cb
    unfold MemNS
    constructor
    · rintro ⟨p, h1, h2⟩
      exact ⟨p, hp.mem_iff.mp h1, h2⟩
    · rintro ⟨p, h1, h2⟩
      exact ⟨p, hp.mem_iff.mpr h1, h2⟩
  have hAll : ∀ cb, AllNS xs cb ↔ AllNS ys cb := by
    intro cb
    unfold AllNS
    constructor
    · rintro ⟨p, h1, h2⟩
      exact ⟨p, hp.mem_iff.mp h1, h2⟩
    · rintro ⟨p, h1, h2⟩
      exact ⟨p, hp.mem_iff.mpr h1, h2⟩
  have hAcc : ∀ cb t, AccNS xs cb t ↔ AccNS ys cb t := by
    intro cb t
    unfold AccNS
    constructor
    · rintro ⟨p, h1, h2⟩
      exact ⟨p, hp.mem_iff.mp h1, h2⟩
    · rintro ⟨p, h1, h2⟩
      exact ⟨p, hp.mem_iff.mpr h1, h2⟩
  obtain ⟨_, hxk, hxe⟩ := filters_characterization xs
  obtain ⟨_, hyk, hye⟩ := filters_characterization ys
  constructor
  · intro cb
    rw [hxk cb, hyk cb, hMem cb]
  · intro f g hf hg hfg
    obtain ⟨_, hx2, hx3⟩ := hxe f hf
    obtain ⟨_, hy2, hy3⟩ := hye g hg
    constructor
    · rw [hx2, hy2, hfg, hAll g.clipboard]
    · intro t
      rw [hx3 t, hy3 t, hfg, hAll g.clipboard, hAcc g.clipboard t]

/-- Witness for C6 (amended): for the concrete two-peer set in its two
orders, the same clipboards occur in both snapshots. -/
theorem filters_perm_equiv_witness :
    (∃ f ∈ clipboardFilters [pNs1, pNs2], f.clipboard = "ns1") ↔
      (∃ f ∈ clipboardFilters [pNs2, pNs1], f.clipboard = "ns1") :=
  (filters_perm_equiv [pNs1, pNs2] [pNs2, pNs1]
    (List.Perm.swap pNs2 pNs1 [])).1 "ns1"

/-- Counterexample for C8 as stated: the loop's delay sequence for seven
transient failures is [1, 2, 4, 8, 16, 32, 32], whose entries exceed the
30-second ceiling `maxReconnect`; and after the second attempt — a stream
that opened successfully before failing — the next delay is 2 seconds, not a
reset to the initial 1 second. -/
theorem stream_backoff_claim_counterexample :
    streamLoopSleeps reconnectDelay
        [.failedOpen, .transientAfterOpen, .failedOpen, .failedOpen,
         .failedOpen, .failedOpen, .failedOpen] =
      [1, 2, 4, 8, 16, 32, 32] ∧
    ¬ (∀ s ∈ streamLoopSleeps reconnectDelay
        [.failedOpen, .transientAfterOpen, .failedOpen, .failedOpen,
         .failedOpen, .failedOpen, .failedOpen], s ≤ maxReconnect) ∧
    streamLoopSleeps reconnectDelay [.transientAfterOpen, .failedOpen] =
      [1, 2] := by
  decide

/-- C8 (amended): the delay starts at `reconnectDelay` (1s); a nil or
canceled outcome ends the loop with no retry; after each failed attempt the
loop sleeps the current delay and doubles it only while it is below the
30-second ceiling, so every delay is at most 32 seconds (the first doubled
value at or above the ceiling); the delay is never reset, a successful open
included. -/
theorem stream_backoff_amended :
    (∀ (d : Nat) (rs : List StreamResult),
      streamLoopSleeps d (.canceled :: rs) = []) ∧
    (∀ (d : Nat) (rs : List StreamResult),
      streamLoopSleeps d (.ok :: rs) = []) ∧
    (∀ (d : Nat) (rs : List StreamResult) (r : StreamResult),
      r.exits = false →
      streamLoopSleeps d (r :: rs) =
        d :: streamLoopSleeps (if d < maxReconnect then d * 2 else d) rs) ∧
    (∀ rs : List StreamResult,
      ∀ s ∈ streamLoopSleeps reconnectDelay rs, s ≤ 32) := by
  refine ⟨fun d rs => rfl, fun d rs => rfl, fun d rs r hr => ?_, fun rs s hs => ?_⟩
  · simp [streamLoopSleeps, hr]
  · have hg := streamLoopSleeps_goodDelay rs reconnectDelay (by decide) s hs
    rcases hg with rfl | rfl | rfl | rfl | rfl | rfl <;> decide

/-- Witness for C8 (amended) at concrete inputs: one failed attempt sleeps
exactly the initial delay, and the 32-second delay reached after six
failures satisfies the 32-second bound. -/
theorem stream_backoff_amended_witness :
    streamLoopSleeps 1 [StreamResult.failedOpen] = [1] ∧ (32 : Nat) ≤ 32 := by
  constructor
  · have h := stream_backoff_amended.2.2.1 1 [] StreamResult.failedOpen rfl
    simpa using h
  · exact stream_backoff_amended.2.2.2
      (List.replicate 6 StreamResult.failedOpen) 32 (by decide)

/-- C10: publishing an empty item sequence still overwrites the latest state
— `Latest` on the canonical clipboard afterwards returns no items and the new
source — while no peer is sent any event, every filtered event being empty. -/
theorem publish_empty_items (h : Hub) (ns o s : String) :
    (h.Publish [] ns o s).sends = [] ∧
    (h.Publish [] ns o s).hub.Latest (canonicalize ns) [] = ([], s) := by
  constructor
  · simp only [Hub.Publish, List.filterMap_eq_nil_iff]
    intro p hp
    simp [filterItems_nil]
  · simp [Hub.Publish, Hub.Latest, canonicalize_idem, lookupD_setA_self,
      filterItems_nil]

end Suffuse
